import Mathlib

/-!
# Verification of `IBA/utils.py`

This file gives a shallow embedding of the two numerical components of the
repository: the streaming `WelfordEstimator` class and the `to_saliency_map`
conversion, together with theorems settling the specification claims.

Modelling conventions:
* numpy float arrays over a fixed feature shape are modelled as functions
  `ι → ℝ` for an index type `ι` (e.g. `Unit` for a scalar feature shape,
  `Fin 2` for shape `(2,)`); exact real arithmetic stands in for IEEE floats.
* A second, shape-aware model over flat `List ℚ` arrays (`WelfordDyn`) embeds
  numpy's 1-D broadcasting rules, to settle the shape-mismatch claim.
* A third, store-passing model (`Heap`/`WelfordRef`) makes numpy's reference
  semantics explicit (which array object each field points to, and which
  updates are in place), to settle the snapshot-aliasing claim.
* Python `None` is `Option.none`; a dict is an association list.
-/

noncomputable section

variable {ι : Type}

/-- Per-location running state of a `WelfordEstimator` once its arrays are
allocated: `m` (running mean `self.m`), `s` (running sum of squared
deviations `self.s`), `nz` (`self._neuron_nonzero`), `n` (`self._n_samples`). -/
structure WelfordCore (ι : Type) where
  m : ι → ℝ
  s : ι → ℝ
  nz : ι → ℕ
  n : ℕ

/-- The body of the `for xi in x` loop of `WelfordEstimator.fit`, iterated over
the samples of the batch:
`self._neuron_nonzero += (xi != 0.)`; `old_m = self.m.copy()`;
`self.m = self.m + (xi - self.m) / (self._n_samples + 1)`;
`self.s = self.s + (xi - self.m) * (xi - old_m)`; `self._n_samples += 1`.
Note the asymmetric form: the first factor of the `s` increment uses the
updated mean `m'`, the second the pre-update mean `c.m`. -/
def welfordStep (c : WelfordCore ι) (xi : ι → ℝ) : WelfordCore ι :=
  let m' : ι → ℝ := fun i => c.m i + (xi i - c.m i) / ((c.n : ℝ) + 1)
  ⟨m', fun i => c.s i + (xi i - m' i) * (xi i - c.m i),
    fun i => c.nz i + (if xi i = 0 then 0 else 1), c.n + 1⟩

/-- The whole `for xi in x` loop of `WelfordEstimator.fit`. -/
def welfordLoop (c : WelfordCore ι) : List (ι → ℝ) → WelfordCore ι
  | [] => c
  | xi :: rest => welfordLoop (welfordStep c xi) rest

/-- The `WelfordEstimator` object.  Fields are `self.m`, `self.s`,
`self._n_samples`, `self._neuron_nonzero`; the array-valued fields are `None`
until the first `fit` call allocates them. -/
structure WelfordEstimator (ι : Type) where
  m : Option (ι → ℝ)
  s : Option (ι → ℝ)
  n_samples : ℕ
  neuron_nonzero : Option (ι → ℕ)

/-- `WelfordEstimator.__init__`. -/
def WelfordEstimator.init (ι : Type) : WelfordEstimator ι := ⟨none, none, 0, none⟩

/-- The zero-initialized arrays allocated on the first `fit` call
(`np.zeros(shape)` for `m` and `s`, `np.zeros(shape, dtype='long')` for
`_neuron_nonzero`). -/
def zeroCore (ι : Type) : WelfordCore ι := ⟨fun _ => 0, fun _ => 0, fun _ => 0, 0⟩

/-- Repack loop state into the estimator object. -/
def packCore (c : WelfordCore ι) : WelfordEstimator ι := ⟨some c.m, some c.s, c.n, some c.nz⟩

/-- `WelfordEstimator.fit(x)` for a batch `x` of samples of the fixed feature
shape `ι`.  On `self._n_samples == 0` the arrays are (re)initialized to zeros;
then every sample is folded in by `welfordLoop`.  (The `.getD` defaults are
dead code for states the class itself produces: whenever `_n_samples ≠ 0` the
array fields have been allocated.  The Python method also returns `x`
unchanged; being a pure observer, that return value is dropped here.) -/
def WelfordEstimator.fit (est : WelfordEstimator ι) (x : List (ι → ℝ)) : WelfordEstimator ι :=
  let c0 : WelfordCore ι :=
    if est.n_samples = 0 then zeroCore ι
    else ⟨est.m.getD (fun _ => 0), est.s.getD (fun _ => 0),
      est.neuron_nonzero.getD (fun _ => 0), est.n_samples⟩
  packCore (welfordLoop c0 x)

/-- `WelfordEstimator.mean`: returns `self.m`. -/
def WelfordEstimator.mean (est : WelfordEstimator ι) : Option (ι → ℝ) := est.m

/-- `WelfordEstimator.std`: `np.sqrt(self.s / (self._n_samples - 1))`.
Python integer arithmetic does not truncate, so the divisor is the real
`n - 1` (negative for `n = 0`). -/
def WelfordEstimator.std (est : WelfordEstimator ι) : Option (ι → ℝ) :=
  est.s.map (fun sf => fun i => Real.sqrt (sf i / ((est.n_samples : ℝ) - 1)))

/-- `WelfordEstimator.active_neurons(threshold=0.01)`:
`(self._neuron_nonzero.astype(np.float32) / self._n_samples) > threshold`.
The `float32` cast is exact for the integer counts involved here. -/
def WelfordEstimator.active_neurons (est : WelfordEstimator ι) (threshold : ℝ := 0.01) :
    Option (ι → Bool) :=
  est.neuron_nonzero.map
    (fun nzf => fun i => decide ((nzf i : ℝ) / (est.n_samples : ℝ) > threshold))

/-- A value stored in the `state_dict` mapping: a float array, an integer
array, a Python int, or Python `None`. -/
inductive StateVal (ι : Type) where
  | rarr : (ι → ℝ) → StateVal ι
  | narr : (ι → ℕ) → StateVal ι
  | intv : ℕ → StateVal ι
  | pynone : StateVal ι

/-- `WelfordEstimator.state_dict()`: the dict
`{'m': self.m, 's': self.s, 'n_samples': self._n_samples,
'neuron_nonzero': self._neuron_nonzero}`, as an association list in the
source's key order. -/
def WelfordEstimator.state_dict (est : WelfordEstimator ι) : List (String × StateVal ι) :=
  [("m", match est.m with | some f => .rarr f | none => .pynone),
   ("s", match est.s with | some f => .rarr f | none => .pynone),
   ("n_samples", .intv est.n_samples),
   ("neuron_nonzero", match est.neuron_nonzero with | some f => .narr f | none => .pynone)]

/-! ## Basic lemmas about the functional model -/

theorem welfordLoop_append (c : WelfordCore ι) (a b : List (ι → ℝ)) :
    welfordLoop c (a ++ b) = welfordLoop (welfordLoop c a) b := by
  induction a generalizing c with
  | nil => rfl
  | cons xi rest ih => simp only [List.cons_append, welfordLoop]; exact ih _

theorem welfordLoop_n (c : WelfordCore ι) (xs : List (ι → ℝ)) :
    (welfordLoop c xs).n = c.n + xs.length := by
  induction xs generalizing c with
  | nil => rfl
  | cons xi rest ih => simp only [welfordLoop, ih, welfordStep, List.length_cons]; omega

theorem fit_of_pack (c : WelfordCore ι) (x : List (ι → ℝ)) (h : c.n ≠ 0) :
    (packCore c).fit x = packCore (welfordLoop c x) := by
  simp [WelfordEstimator.fit, packCore, h]

theorem fit_of_nzero (est : WelfordEstimator ι) (x : List (ι → ℝ)) (h : est.n_samples = 0) :
    est.fit x = packCore (welfordLoop (zeroCore ι) x) := by
  simp [WelfordEstimator.fit, h]

theorem foldl_fit_pack (c : WelfordCore ι) (bs : List (List (ι → ℝ))) (h : c.n ≠ 0) :
    bs.foldl WelfordEstimator.fit (packCore c) = packCore (welfordLoop c bs.flatten) := by
  induction bs generalizing c with
  | nil => simp [welfordLoop]
  | cons b rest ih =>
    have hb : (welfordLoop c b).n ≠ 0 := by
      rw [welfordLoop_n]; omega
    simp only [List.foldl_cons, List.flatten_cons]
    rw [fit_of_pack c b h, ih _ hb, welfordLoop_append]

theorem foldl_fit_of_nzero (est : WelfordEstimator ι) (bs : List (List (ι → ℝ)))
    (h0 : est.n_samples = 0) (hj : bs.flatten ≠ []) :
    bs.foldl WelfordEstimator.fit est = packCore (welfordLoop (zeroCore ι) bs.flatten) := by
  induction bs generalizing est with
  | nil => simp at hj
  | cons b rest ih =>
    simp only [List.foldl_cons, List.flatten_cons]
    rw [fit_of_nzero est b h0]
    rcases eq_or_ne b [] with hb | hb
    · subst hb
      have hrest : rest.flatten ≠ [] := by simpa using hj
      rw [ih (packCore (welfordLoop (zeroCore ι) [])) rfl hrest]
      simp [welfordLoop]
    · have hn : (welfordLoop (zeroCore ι) b).n ≠ 0 := by
        rw [welfordLoop_n]
        simp [zeroCore, List.length_eq_zero, hb]
      rw [foldl_fit_pack _ rest hn, welfordLoop_append]

theorem welfordLoop_one_two_three :
    welfordLoop (zeroCore Unit) [fun _ => 1, fun _ => 2, fun _ => 3] =
      ⟨fun _ => 2, fun _ => 2, fun _ => 3, 3⟩ := by
  simp only [welfordLoop, welfordStep, zeroCore, WelfordCore.mk.injEq]
  refine ⟨?_, ?_, ?_, trivial⟩ <;> funext i <;> norm_num

/-- C1: starting from a fresh estimator, fitting the three scalar-shaped
samples `1.0, 2.0, 3.0` (in any batch grouping) yields `mean() = 2.0`,
`n_samples = 3`, an internal sum of squared deviations `s = 2.0`, and
`std() = 1.0` (sample standard deviation with the `n - 1` divisor). -/
theorem C1_known_value_check (bs : List (List (Unit → ℝ)))
    (h : bs.flatten = [fun _ => 1, fun _ => 2, fun _ => 3]) :
    (bs.foldl WelfordEstimator.fit (WelfordEstimator.init Unit)).mean = some (fun _ => 2) ∧
    (bs.foldl WelfordEstimator.fit (WelfordEstimator.init Unit)).n_samples = 3 ∧
    (bs.foldl WelfordEstimator.fit (WelfordEstimator.init Unit)).s = some (fun _ => 2) ∧
    (bs.foldl WelfordEstimator.fit (WelfordEstimator.init Unit)).std = some (fun _ => 1) := by
  have hj : bs.flatten ≠ [] := by rw [h]; simp
  rw [foldl_fit_of_nzero _ _ rfl hj, h, welfordLoop_one_two_three]
  refine ⟨rfl, rfl, rfl, ?_⟩
  simp only [WelfordEstimator.std, packCore, Option.map_some']
  congr 1
  funext i
  norm_num

/-! ## C7: the elementwise invariant `nonzero_count ≤ sample_count` -/

/-- The invariant of claim C7: wherever the `_neuron_nonzero` array is
allocated, each of its entries is at most `_n_samples`. -/
def nzInvariant (est : WelfordEstimator ι) : Prop :=
  ∀ nzf, est.neuron_nonzero = some nzf → ∀ i, nzf i ≤ est.n_samples

theorem welfordLoop_nz_le (c : WelfordCore ι) (xs : List (ι → ℝ)) (i : ι)
    (h : c.nz i ≤ c.n) : (welfordLoop c xs).nz i ≤ (welfordLoop c xs).n := by
  induction xs generalizing c with
  | nil => exact h
  | cons xi rest ih =>
    simp only [welfordLoop]
    exact ih _ (by simp only [welfordStep]; split <;> omega)

theorem fit_nzInvariant (est : WelfordEstimator ι) (b : List (ι → ℝ)) (h : nzInvariant est) :
    nzInvariant (est.fit b) := by
  by_cases h0 : est.n_samples = 0
  · rw [fit_of_nzero est b h0]
    intro nzf hnz i
    simp only [packCore, Option.some.injEq] at hnz
    subst hnz
    exact welfordLoop_nz_le _ _ _ (le_refl 0)
  · have hfit : est.fit b = packCore (welfordLoop
        ⟨est.m.getD (fun _ => 0), est.s.getD (fun _ => 0),
          est.neuron_nonzero.getD (fun _ => 0), est.n_samples⟩ b) := by
      simp [WelfordEstimator.fit, h0]
    rw [hfit]
    intro nzf hnz i
    simp only [packCore, Option.some.injEq] at hnz
    subst hnz
    refine welfordLoop_nz_le _ _ _ ?_
    cases hm : est.neuron_nonzero with
    | none => simp
    | some f => simpa using h f hm i

theorem foldl_fit_nzInvariant (est : WelfordEstimator ι) (bs : List (List (ι → ℝ)))
    (h : nzInvariant est) : nzInvariant (bs.foldl WelfordEstimator.fit est) := by
  induction bs generalizing est with
  | nil => exact h
  | cons b rest ih => exact ih _ (fit_nzInvariant _ _ h)

/-- C7: for every estimator state reachable by a sequence of `fit` calls from
a fresh estimator, `_neuron_nonzero[i] ≤ _n_samples` at every location `i`,
and the invariant is preserved by every further `fit` call. -/
theorem C7_nonzero_le_sample_count (bs : List (List (ι → ℝ))) :
    nzInvariant (bs.foldl WelfordEstimator.fit (WelfordEstimator.init ι)) ∧
    (∀ b, nzInvariant ((bs.foldl WelfordEstimator.fit (WelfordEstimator.init ι)).fit b)) := by
  have hinit : nzInvariant (WelfordEstimator.init ι) := by
    intro nzf hnz
    simp [WelfordEstimator.init] at hnz
  exact ⟨foldl_fit_nzInvariant _ _ hinit,
    fun b => fit_nzInvariant _ _ (foldl_fit_nzInvariant _ _ hinit)⟩

/-- Witness for C7: after fitting the single scalar sample `1.0`, the nonzero
count at the only location is at most the sample count. -/
theorem C7_nonzero_le_sample_count_witness :
    ∀ nzf, (([[fun _ => 1]] : List (List (Unit → ℝ))).foldl WelfordEstimator.fit
        (WelfordEstimator.init Unit)).neuron_nonzero = some nzf →
      nzf () ≤ (([[fun _ => 1]] : List (List (Unit → ℝ))).foldl WelfordEstimator.fit
        (WelfordEstimator.init Unit)).n_samples :=
  fun nzf hnz => (C7_nonzero_le_sample_count [[fun _ => 1]]).1 nzf hnz ()

/-! ## C9: `active_neurons` -/

/-- C9: for every estimator with at least one sample, `active_neurons` is true
exactly where `nonzero_count / sample_count > threshold`; the threshold
defaults to `0.01`; and for feature shape `(2,)` after fitting the samples
`[1,0], [1,0], [0,0]` the nonzero counts are `[2,0]`, the sample count is `3`,
and the mask at threshold `0.5` (and at the default threshold) is
`[true, false]`. -/
theorem C9_active_mask :
    (∀ (est : WelfordEstimator ι) (t : ℝ) (nzf : ι → ℕ) (msk : ι → Bool),
        1 ≤ est.n_samples → est.neuron_nonzero = some nzf →
        est.active_neurons t = some msk →
        ∀ i, msk i = true ↔ (nzf i : ℝ) / (est.n_samples : ℝ) > t) ∧
    (((WelfordEstimator.init (Fin 2)).fit
          [fun i => if i = 0 then 1 else 0, fun i => if i = 0 then 1 else 0,
            fun _ => 0]).neuron_nonzero.map (fun f => (f 0, f 1)) = some (2, 0) ∧
      ((WelfordEstimator.init (Fin 2)).fit
          [fun i => if i = 0 then 1 else 0, fun i => if i = 0 then 1 else 0,
            fun _ => 0]).n_samples = 3 ∧
      (((WelfordEstimator.init (Fin 2)).fit
          [fun i => if i = 0 then 1 else 0, fun i => if i = 0 then 1 else 0,
            fun _ => 0]).active_neurons 0.5).map (fun f => (f 0, f 1)) =
        some (true, false) ∧
      (((WelfordEstimator.init (Fin 2)).fit
          [fun i => if i = 0 then 1 else 0, fun i => if i = 0 then 1 else 0,
            fun _ => 0]).active_neurons).map (fun f => (f 0, f 1)) =
        some (true, false)) := by
  constructor
  · intro est t nzf msk _ hnz hmsk i
    simp only [WelfordEstimator.active_neurons, hnz, Option.map_some',
      Option.some.injEq] at hmsk
    subst hmsk
    exact decide_eq_true_iff
  · rw [fit_of_nzero _ _ rfl]
    simp only [welfordLoop, welfordStep, zeroCore, packCore, WelfordEstimator.active_neurons,
      Option.map_some', Option.some.injEq, WelfordEstimator.n_samples]
    norm_num [Fin.ext_iff, Prod.ext_iff]

/-- Witness for C9's universally quantified part, at the same concrete
estimator and threshold `0.5`, location `0`. -/
theorem C9_active_mask_witness :
    ∀ nzf msk,
      ((WelfordEstimator.init (Fin 2)).fit
          [fun i => if i = 0 then 1 else 0, fun i => if i = 0 then 1 else 0,
            fun _ => 0]).neuron_nonzero = some nzf →
      ((WelfordEstimator.init (Fin 2)).fit
          [fun i => if i = 0 then 1 else 0, fun i => if i = 0 then 1 else 0,
            fun _ => 0]).active_neurons 0.5 = some msk →
      (msk 0 = true ↔ (nzf 0 : ℝ) /
        (((WelfordEstimator.init (Fin 2)).fit
          [fun i => if i = 0 then 1 else 0, fun i => if i = 0 then 1 else 0,
            fun _ => 0]).n_samples : ℝ) > 0.5) :=
  fun nzf msk hnz hmsk =>
    (C9_active_mask (ι := Fin 2)).1 _ 0.5 nzf msk (by rw [fit_of_nzero _ _ rfl]; simp [packCore, welfordLoop, welfordStep]) hnz hmsk 0

/-! ## C4: the `state_dict` mapping -/

/-- C4 counterexample: the snapshot mapping's keys are
`'m', 's', 'n_samples', 'neuron_nonzero'`, not the claimed
`'mean', 'sum_sq_dev', 'sample_count', 'nonzero_count'`. -/
theorem C4_counterexample :
    (WelfordEstimator.init Unit).state_dict.map Prod.fst ≠
      ["mean", "sum_sq_dev", "sample_count", "nonzero_count"] ∧
    (WelfordEstimator.init Unit).state_dict.map Prod.fst =
      ["m", "s", "n_samples", "neuron_nonzero"] := by
  constructor <;> simp [WelfordEstimator.state_dict, WelfordEstimator.init]

/-- C4 amended: for every estimator state, `state_dict()` has exactly the four
keys `'m', 's', 'n_samples', 'neuron_nonzero'` (in that order), whose values
are the estimator's current arrays (or `None` before allocation) and the
integer sample count. -/
theorem C4_state_dict_shape (est : WelfordEstimator ι) :
    est.state_dict.map Prod.fst = ["m", "s", "n_samples", "neuron_nonzero"] ∧
    est.state_dict.lookup "n_samples" = some (.intv est.n_samples) ∧
    (∀ f, est.m = some f → est.state_dict.lookup "m" = some (.rarr f)) ∧
    (∀ f, est.s = some f → est.state_dict.lookup "s" = some (.rarr f)) ∧
    (∀ f, est.neuron_nonzero = some f →
      est.state_dict.lookup "neuron_nonzero" = some (.narr f)) := by
  refine ⟨by simp [WelfordEstimator.state_dict], ?_, ?_, ?_, ?_⟩ <;>
    simp [WelfordEstimator.state_dict, List.lookup] <;>
    intro f hf <;> simp [hf]

/-- Witness for C4's amended statement at a concrete allocated estimator. -/
theorem C4_state_dict_shape_witness :
    (packCore (zeroCore Unit)).state_dict.map Prod.fst =
      ["m", "s", "n_samples", "neuron_nonzero"] ∧
    (packCore (zeroCore Unit)).state_dict.lookup "m" =
      some (.rarr (fun _ => 0)) :=
  ⟨(C4_state_dict_shape _).1, (C4_state_dict_shape (packCore (zeroCore Unit))).2.2.1 _ rfl⟩

/-- Witness for C1 at the concrete batch grouping `[[1.0], [2.0, 3.0]]`. -/
theorem C1_known_value_check_witness :
    (([[fun _ => 1], [fun _ => 2, fun _ => 3]] : List (List (Unit → ℝ))).foldl
        WelfordEstimator.fit (WelfordEstimator.init Unit)).mean = some (fun _ => 2) ∧
    (([[fun _ => 1], [fun _ => 2, fun _ => 3]] : List (List (Unit → ℝ))).foldl
        WelfordEstimator.fit (WelfordEstimator.init Unit)).n_samples = 3 :=
  ⟨(C1_known_value_check [[fun _ => 1], [fun _ => 2, fun _ => 3]] (by simp)).1,
   (C1_known_value_check [[fun _ => 1], [fun _ => 2, fun _ => 3]] (by simp)).2.1⟩

/-! ## Store-passing model of the estimator (reference semantics, for C2)

`state_dict` returns the *objects* currently bound to `self.m`, `self.s`,
`self._neuron_nonzero` (no copy), and `fit` updates `_neuron_nonzero` in
place (`+=`) while rebinding `self.m` / `self.s` to freshly allocated arrays.
To reason about this we model a heap of array objects and estimators holding
addresses. -/

/-- A heap of numpy array objects: `rmem` holds the float arrays and `nmem`
the integer arrays, addressed by allocation order; `next` is the next fresh
address.  Distinct array objects occupy distinct addresses. -/
structure Heap (ι : Type) where
  next : ℕ
  rmem : ℕ → ι → ℝ
  nmem : ℕ → ι → ℕ

/-- Allocate a fresh float array holding `v`. -/
def Heap.allocR (h : Heap ι) (v : ι → ℝ) : Heap ι × ℕ :=
  (⟨h.next + 1, Function.update h.rmem h.next v, h.nmem⟩, h.next)

/-- Allocate a fresh integer array holding `v`. -/
def Heap.allocN (h : Heap ι) (v : ι → ℕ) : Heap ι × ℕ :=
  (⟨h.next + 1, h.rmem, Function.update h.nmem h.next v⟩, h.next)

/-- The estimator object under reference semantics: each array field names a
heap address (or Python `None`). -/
structure WelfordRef where
  m : Option ℕ
  s : Option ℕ
  n_samples : ℕ
  neuron_nonzero : Option ℕ

/-- The running state of `fit`'s loop under reference semantics: the heap and
the addresses currently bound to `self.m` and `self.s`, plus `_n_samples`.
The `_neuron_nonzero` address `nza` never changes during the loop. -/
structure LoopSt (ι : Type) where
  h : Heap ι
  ma : ℕ
  sa : ℕ
  n : ℕ

/-- The body of the `for xi in x` loop of `fit` under reference semantics:
`self._neuron_nonzero += (xi != 0.)` updates the array at `nza` IN PLACE,
while the assignments to `self.m` and `self.s` allocate fresh arrays and
rebind the fields. -/
def stepH (nza : ℕ) (st : LoopSt ι) (xi : ι → ℝ) : LoopSt ι :=
  let h1 : Heap ι := ⟨st.h.next, st.h.rmem,
    Function.update st.h.nmem nza
      (fun i => st.h.nmem nza i + (if xi i = 0 then 0 else 1))⟩
  let old_m : ι → ℝ := h1.rmem st.ma
  let p2 := h1.allocR
    (fun i => h1.rmem st.ma i + (xi i - h1.rmem st.ma i) / ((st.n : ℝ) + 1))
  let p3 := p2.1.allocR
    (fun i => p2.1.rmem st.sa i + (xi i - p2.1.rmem p2.2 i) * (xi i - old_m i))
  ⟨p3.1, p2.2, p3.2, st.n + 1⟩

/-- The whole `for xi in x` loop of `fit` under reference semantics. -/
def loopH (nza : ℕ) (st : LoopSt ι) : List (ι → ℝ) → LoopSt ι
  | [] => st
  | xi :: rest => loopH nza (stepH nza st xi) rest

/-- `WelfordEstimator.fit` under reference semantics. -/
def fitH (h : Heap ι) (e : WelfordRef) (x : List (ι → ℝ)) : Heap ι × WelfordRef :=
  if e.n_samples = 0 then
    let pm := h.allocR (fun _ => 0)
    let ps := pm.1.allocR (fun _ => 0)
    let pz := ps.1.allocN (fun _ => 0)
    let r := loopH pz.2 ⟨pz.1, pm.2, ps.2, 0⟩ x
    (r.h, ⟨some r.ma, some r.sa, r.n, some pz.2⟩)
  else
    let nza := e.neuron_nonzero.getD 0
    let r := loopH nza ⟨h, e.m.getD 0, e.s.getD 0, e.n_samples⟩ x
    (r.h, ⟨some r.ma, some r.sa, r.n, some nza⟩)

/-- `WelfordEstimator.state_dict()` under reference semantics: the dict holds
the very objects the fields name — no copy is made.  (The string keys are
modelled positionally here; the functional model's `state_dict` covers them.) -/
structure StateDictH where
  m : Option ℕ
  s : Option ℕ
  n_samples : ℕ
  neuron_nonzero : Option ℕ

/-- `state_dict` under reference semantics. -/
def state_dictH (e : WelfordRef) : StateDictH := ⟨e.m, e.s, e.n_samples, e.neuron_nonzero⟩

/-- `load_state_dict` under reference semantics: the fields are rebound to the
dict's objects (again no copy). -/
def load_state_dictH (_e : WelfordRef) (d : StateDictH) : WelfordRef :=
  ⟨d.m, d.s, d.n_samples, d.neuron_nonzero⟩

/-- Dereference an estimator's fields: the value-level estimator it denotes. -/
def funcState (h : Heap ι) (e : WelfordRef) : WelfordEstimator ι :=
  ⟨e.m.map h.rmem, e.s.map h.rmem, e.n_samples, e.neuron_nonzero.map h.nmem⟩

/-- The `WelfordCore` denoted by a loop state (given the nonzero address). -/
def coreOf (nza : ℕ) (st : LoopSt ι) : WelfordCore ι :=
  ⟨st.h.rmem st.ma, st.h.rmem st.sa, st.h.nmem nza, st.n⟩

/-- Well-formed estimator: all held addresses are allocated, and once samples
have been seen all three arrays exist (as the class itself guarantees). -/
def wfH (h : Heap ι) (e : WelfordRef) : Prop :=
  (∀ a, e.m = some a → a < h.next) ∧
  (∀ a, e.s = some a → a < h.next) ∧
  (∀ a, e.neuron_nonzero = some a → a < h.next) ∧
  (e.n_samples ≠ 0 → e.m.isSome ∧ e.s.isSome ∧ e.neuron_nonzero.isSome)

theorem stepH_next (nza : ℕ) (st : LoopSt ι) (xi : ι → ℝ) :
    (stepH nza st xi).h.next = st.h.next + 2 := rfl

theorem stepH_ma (nza : ℕ) (st : LoopSt ι) (xi : ι → ℝ) :
    (stepH nza st xi).ma = st.h.next := rfl

theorem stepH_sa (nza : ℕ) (st : LoopSt ι) (xi : ι → ℝ) :
    (stepH nza st xi).sa = st.h.next + 1 := rfl

theorem stepH_rmem_frame (nza : ℕ) (st : LoopSt ι) (xi : ι → ℝ) (a : ℕ)
    (ha : a < st.h.next) : (stepH nza st xi).h.rmem a = st.h.rmem a := by
  simp only [stepH, Heap.allocR]
  rw [Function.update_noteq (by omega), Function.update_noteq (by omega)]

theorem stepH_nmem_frame (nza : ℕ) (st : LoopSt ι) (xi : ι → ℝ) (a : ℕ)
    (ha : a ≠ nza) : (stepH nza st xi).h.nmem a = st.h.nmem a := by
  simp only [stepH, Heap.allocR]
  rw [Function.update_noteq ha]

/-- One iteration of the reference-semantics loop denotes exactly one
`welfordStep` on the values the addresses hold. -/
theorem stepH_core (nza : ℕ) (st : LoopSt ι) (xi : ι → ℝ)
    (hsa : st.sa < st.h.next) :
    coreOf nza (stepH nza st xi) = welfordStep (coreOf nza st) xi := by
  have hsa1 : st.sa ≠ st.h.next := by omega
  have hnn : st.h.next ≠ st.h.next + 1 := by omega
  simp only [coreOf, stepH, Heap.allocR, welfordStep, WelfordCore.mk.injEq,
    stepH_ma, stepH_sa]
  refine ⟨?_, ?_, ?_, trivial⟩
  · funext i
    rw [Function.update_noteq hnn, Function.update_same]
  · funext i
    rw [Function.update_same, Function.update_noteq hsa1, Function.update_same]
  · funext i
    rw [Function.update_same]

/-- Refinement and frame properties of the reference-semantics loop: it
denotes exactly `welfordLoop`, allocates only fresh float arrays, and writes
integer memory only at `nza`. -/
theorem loopH_spec (nza : ℕ) (xs : List (ι → ℝ)) (st : LoopSt ι)
    (hma : st.ma < st.h.next) (hsa : st.sa < st.h.next) (hnza : nza < st.h.next) :
    coreOf nza (loopH nza st xs) = welfordLoop (coreOf nza st) xs ∧
    st.h.next ≤ (loopH nza st xs).h.next ∧
    (loopH nza st xs).ma < (loopH nza st xs).h.next ∧
    (loopH nza st xs).sa < (loopH nza st xs).h.next ∧
    (∀ a, a < st.h.next → (loopH nza st xs).h.rmem a = st.h.rmem a) ∧
    (∀ a, a ≠ nza → (loopH nza st xs).h.nmem a = st.h.nmem a) := by
  induction xs generalizing st with
  | nil => exact ⟨rfl, le_refl _, hma, hsa, fun _ _ => rfl, fun _ _ => rfl⟩
  | cons xi rest ih =>
    have hnext := stepH_next nza st xi
    obtain ⟨ih1, ih2, ih3, ih4, ih5, ih6⟩ := ih (stepH nza st xi)
      (by rw [stepH_ma, hnext]; omega) (by rw [stepH_sa, hnext]; omega)
      (by rw [hnext]; omega)
    refine ⟨?_, ?_, ih3, ih4, ?_, ?_⟩
    · rw [show loopH nza st (xi :: rest) = loopH nza (stepH nza st xi) rest from rfl,
        ih1, stepH_core nza st xi hsa]
      rfl
    · calc st.h.next ≤ (stepH nza st xi).h.next := by omega
        _ ≤ _ := ih2
    · intro a ha
      rw [show loopH nza st (xi :: rest) = loopH nza (stepH nza st xi) rest from rfl,
        ih5 a (by omega), stepH_rmem_frame nza st xi a ha]
    · intro a ha
      rw [show loopH nza st (xi :: rest) = loopH nza (stepH nza st xi) rest from rfl,
        ih6 a ha, stepH_nmem_frame nza st xi a ha]

/-- Refinement and frame properties of `fit` under reference semantics:
the result denotes exactly the value-level `fit`; float memory below the old
frontier is untouched; integer memory is written only at the (pre-existing)
`_neuron_nonzero` object; and the `_neuron_nonzero` field is rebound only by
the first-call initialization. -/
theorem fitH_spec (h : Heap ι) (e : WelfordRef) (x : List (ι → ℝ)) (hwf : wfH h e) :
    funcState (fitH h e x).1 (fitH h e x).2 = (funcState h e).fit x ∧
    h.next ≤ (fitH h e x).1.next ∧
    wfH (fitH h e x).1 (fitH h e x).2 ∧
    (∀ a, a < h.next → (fitH h e x).1.rmem a = h.rmem a) ∧
    (∀ a, a < h.next → (e.n_samples = 0 ∨ e.neuron_nonzero ≠ some a) →
      (fitH h e x).1.nmem a = h.nmem a) ∧
    (fitH h e x).2.neuron_nonzero =
      (if e.n_samples = 0 then some (h.next + 2) else e.neuron_nonzero) ∧
    (e.n_samples = 0 → h.next + 3 ≤ (fitH h e x).1.next) := by
  obtain ⟨hwm, hws, hwz, hwsome⟩ := hwf
  by_cases h0 : e.n_samples = 0
  · -- first call: three fresh zero arrays are allocated, then the loop runs
    set st0 : LoopSt ι := ⟨⟨h.next + 3,
        Function.update (Function.update h.rmem h.next (fun _ => 0))
          (h.next + 1) (fun _ => 0),
        Function.update h.nmem (h.next + 2) (fun _ => 0)⟩,
      h.next, h.next + 1, 0⟩ with hst0
    have hfit : fitH h e x = ((loopH (h.next + 2) st0 x).h,
        ⟨some (loopH (h.next + 2) st0 x).ma, some (loopH (h.next + 2) st0 x).sa,
          (loopH (h.next + 2) st0 x).n, some (h.next + 2)⟩) := by
      simp only [fitH, if_pos h0, Heap.allocR, Heap.allocN, hst0]
    rw [hfit]
    dsimp only
    obtain ⟨l1, l2, l3, l4, l5, l6⟩ := loopH_spec (h.next + 2) x st0
      (by simp [hst0]) (by simp [hst0]) (by simp [hst0])
    have hnext3 : st0.h.next = h.next + 3 := rfl
    have hcore0 : coreOf (h.next + 2) st0 = zeroCore ι := by
      simp only [coreOf, hst0, zeroCore, WelfordCore.mk.injEq]
      refine ⟨?_, ?_, ?_, trivial⟩
      · funext i
        rw [Function.update_noteq (by omega), Function.update_same]
      · funext i
        rw [Function.update_same]
      · funext i
        rw [Function.update_same]
    rw [hcore0] at l1
    refine ⟨?_, by omega, ?_, ?_, ?_, by simp [h0], fun _ => by omega⟩
    · have hn0 : (funcState h e).n_samples = 0 := h0
      rw [fit_of_nzero _ x hn0]
      simp only [funcState, packCore, WelfordEstimator.mk.injEq, Option.map_some']
      exact ⟨congrArg (fun c => some c.m) l1, congrArg (fun c => some c.s) l1,
        congrArg WelfordCore.n l1, congrArg (fun c => some c.nz) l1⟩
    · refine ⟨?_, ?_, ?_, fun _ => ⟨rfl, rfl, rfl⟩⟩
      · intro a ha
        replace ha := Option.some.inj ha
        subst ha
        exact l3
      · intro a ha
        replace ha := Option.some.inj ha
        subst ha
        exact l4
      · intro a ha
        replace ha := Option.some.inj ha
        subst ha
        omega
    · intro a ha
      rw [l5 a (by omega)]
      simp only [hst0]
      rw [Function.update_noteq (by omega), Function.update_noteq (by omega)]
    · intro a ha _
      rw [l6 a (by omega)]
      simp only [hst0]
      rw [Function.update_noteq (by omega)]
  · -- later calls: the loop runs on the objects the fields already name
    obtain ⟨hm, hs, hz⟩ := hwsome h0
    obtain ⟨am, ham⟩ := Option.isSome_iff_exists.mp hm
    obtain ⟨as, has⟩ := Option.isSome_iff_exists.mp hs
    obtain ⟨az, haz⟩ := Option.isSome_iff_exists.mp hz
    have hfit : fitH h e x = ((loopH az ⟨h, am, as, e.n_samples⟩ x).h,
        ⟨some (loopH az ⟨h, am, as, e.n_samples⟩ x).ma,
          some (loopH az ⟨h, am, as, e.n_samples⟩ x).sa,
          (loopH az ⟨h, am, as, e.n_samples⟩ x).n, some az⟩) := by
      simp only [fitH, if_neg h0, ham, has, haz, Option.getD_some]
    rw [hfit]
    dsimp only
    obtain ⟨l1, l2, l3, l4, l5, l6⟩ := loopH_spec az x ⟨h, am, as, e.n_samples⟩
      (hwm am ham) (hws as has) (hwz az haz)
    refine ⟨?_, l2, ?_, fun a ha => l5 a ha, ?_, by simp [h0, haz],
      fun hh => absurd hh h0⟩
    · have hpack : funcState h e =
          packCore ⟨h.rmem am, h.rmem as, h.nmem az, e.n_samples⟩ := by
        simp [funcState, packCore, ham, has, haz]
      rw [hpack, fit_of_pack _ x h0]
      simp only [funcState, packCore, WelfordEstimator.mk.injEq, Option.map_some']
      exact ⟨congrArg (fun c => some c.m) l1, congrArg (fun c => some c.s) l1,
        congrArg WelfordCore.n l1, congrArg (fun c => some c.nz) l1⟩
    · refine ⟨?_, ?_, ?_, fun _ => ⟨rfl, rfl, rfl⟩⟩
      · intro a ha
        replace ha := Option.some.inj ha
        subst ha
        exact l3
      · intro a ha
        replace ha := Option.some.inj ha
        subst ha
        exact l4
      · intro a ha
        replace ha := Option.some.inj ha
        subst ha
        have := hwz az haz
        have h2 : (⟨h, am, as, e.n_samples⟩ : LoopSt ι).h.next = h.next := rfl
        omega
    · intro a ha hcond
      rcases hcond with hcond | hcond
      · exact absurd hcond h0
      · refine l6 a ?_
        intro hazeq
        exact hcond (hazeq ▸ haz)

/-- `welfordLoop`'s mean, `s`, and count outputs do not depend on the nonzero
counts. -/
theorem welfordLoop_msn (c1 c2 : WelfordCore ι) (xs : List (ι → ℝ))
    (hm : c1.m = c2.m) (hs : c1.s = c2.s) (hn : c1.n = c2.n) :
    (welfordLoop c1 xs).m = (welfordLoop c2 xs).m ∧
    (welfordLoop c1 xs).s = (welfordLoop c2 xs).s ∧
    (welfordLoop c1 xs).n = (welfordLoop c2 xs).n := by
  induction xs generalizing c1 c2 with
  | nil => exact ⟨hm, hs, hn⟩
  | cons xi rest ih =>
    simp only [welfordLoop]
    exact ih _ _ (by simp [welfordStep, hm, hn]) (by simp [welfordStep, hm, hs, hn])
      (by simp [welfordStep, hn])

/-- `fit`'s mean, `s`, and count outputs do not depend on the nonzero counts. -/
theorem fit_congr_msn (e1 e2 : WelfordEstimator ι) (b : List (ι → ℝ))
    (hm : e1.m = e2.m) (hs : e1.s = e2.s) (hn : e1.n_samples = e2.n_samples) :
    (e1.fit b).m = (e2.fit b).m ∧ (e1.fit b).s = (e2.fit b).s ∧
    (e1.fit b).n_samples = (e2.fit b).n_samples := by
  by_cases h0 : e1.n_samples = 0
  · rw [fit_of_nzero e1 b h0, fit_of_nzero e2 b (hn ▸ h0)]
    exact ⟨rfl, rfl, rfl⟩
  · have h0' : e2.n_samples ≠ 0 := hn ▸ h0
    have hf1 : e1.fit b = packCore (welfordLoop ⟨e1.m.getD (fun _ => 0),
        e1.s.getD (fun _ => 0), e1.neuron_nonzero.getD (fun _ => 0),
        e1.n_samples⟩ b) := by
      simp [WelfordEstimator.fit, h0]
    have hf2 : e2.fit b = packCore (welfordLoop ⟨e2.m.getD (fun _ => 0),
        e2.s.getD (fun _ => 0), e2.neuron_nonzero.getD (fun _ => 0),
        e2.n_samples⟩ b) := by
      simp [WelfordEstimator.fit, h0']
    rw [hf1, hf2]
    obtain ⟨q1, q2, q3⟩ := welfordLoop_msn
      ⟨e1.m.getD (fun _ => 0), e1.s.getD (fun _ => 0),
        e1.neuron_nonzero.getD (fun _ => 0), e1.n_samples⟩
      ⟨e2.m.getD (fun _ => 0), e2.s.getD (fun _ => 0),
        e2.neuron_nonzero.getD (fun _ => 0), e2.n_samples⟩ b
      (by simp [hm]) (by simp [hs]) (by simp [hn])
    exact ⟨congrArg some q1, congrArg some q2, q3⟩

/-- `fit` always adds the batch length to the sample count. -/
theorem fit_n_samples (est : WelfordEstimator ι) (b : List (ι → ℝ)) :
    (est.fit b).n_samples = est.n_samples + b.length := by
  by_cases h0 : est.n_samples = 0
  · rw [fit_of_nzero est b h0, h0]
    simp [packCore, welfordLoop_n, zeroCore]
  · have hf : est.fit b = packCore (welfordLoop ⟨est.m.getD (fun _ => 0),
        est.s.getD (fun _ => 0), est.neuron_nonzero.getD (fun _ => 0),
        est.n_samples⟩ b) := by
      simp [WelfordEstimator.fit, h0]
    rw [hf]
    simp [packCore, welfordLoop_n]

theorem wfH_mono (h h' : Heap ι) (e : WelfordRef) (hle : h.next ≤ h'.next)
    (hw : wfH h e) : wfH h' e := by
  obtain ⟨a, b, c, d⟩ := hw
  exact ⟨fun x hx => lt_of_lt_of_le (a x hx) hle,
    fun x hx => lt_of_lt_of_le (b x hx) hle,
    fun x hx => lt_of_lt_of_le (c x hx) hle, d⟩

/-- Coupling invariant between the original estimator and the one restored
from its snapshot: both well formed, equal sample counts, value-equal mean
and `s` arrays, and `_neuron_nonzero` fields that either name the SAME array
object or are value-equal. -/
def Coupled (h : Heap ι) (e1 e2 : WelfordRef) : Prop :=
  wfH h e1 ∧ wfH h e2 ∧ e1.n_samples = e2.n_samples ∧
  e1.m.map h.rmem = e2.m.map h.rmem ∧
  e1.s.map h.rmem = e2.s.map h.rmem ∧
  (e1.neuron_nonzero = e2.neuron_nonzero ∨
    (e1.neuron_nonzero ≠ e2.neuron_nonzero ∧
      e1.neuron_nonzero.map h.nmem = e2.neuron_nonzero.map h.nmem))

/-- The coupling makes the two estimators denote the same value-level
estimator. -/
theorem Coupled.funcState_eq (h : Heap ι) (e1 e2 : WelfordRef)
    (hc : Coupled h e1 e2) : funcState h e1 = funcState h e2 := by
  obtain ⟨_, _, hn, hm, hs, hz⟩ := hc
  simp only [funcState, WelfordEstimator.mk.injEq]
  refine ⟨hm, hs, hn, ?_⟩
  rcases hz with hz | ⟨_, hz⟩
  · rw [hz]
  · exact hz

/-- One round of identical `fit` calls — first on the original estimator,
then on the restored one, in the same heap — preserves the coupling. -/
theorem coupled_fit (h : Heap ι) (e1 e2 : WelfordRef) (b : List (ι → ℝ))
    (hc : Coupled h e1 e2) :
    Coupled (fitH (fitH h e1 b).1 e2 b).1 (fitH h e1 b).2
      (fitH (fitH h e1 b).1 e2 b).2 := by
  have hfeq : funcState h e1 = funcState h e2 := Coupled.funcState_eq h e1 e2 hc
  obtain ⟨hw1, hw2, hn, hm, hs, hz⟩ := hc
  obtain ⟨f1, f2, f3, f4, f5, f6, f7⟩ := fitH_spec h e1 b hw1
  have hw2' : wfH (fitH h e1 b).1 e2 := wfH_mono h _ e2 f2 hw2
  obtain ⟨g1, g2, g3, g4, g5, g6, g7⟩ := fitH_spec (fitH h e1 b).1 e2 b hw2'
  -- shorthands
  set h1 := (fitH h e1 b).1
  set e1' := (fitH h e1 b).2
  set h2 := (fitH h1 e2 b).1
  set e2' := (fitH h1 e2 b).2
  -- the restored estimator's mean/s arrays read the same in h1 as in h
  have hm2 : e2.m.map h1.rmem = e2.m.map h.rmem := by
    cases hma : e2.m with
    | none => rfl
    | some a => simp [f4 a (hw2.1 a hma)]
  have hs2 : e2.s.map h1.rmem = e2.s.map h.rmem := by
    cases hsa : e2.s with
    | none => rfl
    | some a => simp [f4 a (hw2.2.1 a hsa)]
  -- mean/s/count of the two value-level fits agree
  obtain ⟨q1, q2, q3⟩ := fit_congr_msn (funcState h1 e2) (funcState h e1) b
    (by
      show e2.m.map h1.rmem = e1.m.map h.rmem
      rw [hm2, ← hm])
    (by
      show e2.s.map h1.rmem = e1.s.map h.rmem
      rw [hs2, ← hs])
    (by
      show e2.n_samples = e1.n_samples
      exact hn.symm)
  refine ⟨wfH_mono h1 h2 e1' g2 f3, g3, ?_, ?_, ?_, ?_⟩
  · -- equal sample counts
    have t1 : e1'.n_samples = ((funcState h e1).fit b).n_samples :=
      congrArg WelfordEstimator.n_samples f1
    have t2 : e2'.n_samples = ((funcState h1 e2).fit b).n_samples :=
      congrArg WelfordEstimator.n_samples g1
    rw [t1, t2, q3]
  · -- value-equal means
    have t1 : e1'.m.map h1.rmem = ((funcState h e1).fit b).m :=
      congrArg WelfordEstimator.m f1
    have t2 : e2'.m.map h2.rmem = ((funcState h1 e2).fit b).m :=
      congrArg WelfordEstimator.m g1
    have t3 : e1'.m.map h2.rmem = e1'.m.map h1.rmem := by
      cases hma : e1'.m with
      | none => rfl
      | some a => simp [g4 a (f3.1 a hma)]
    rw [t3, t1, t2, q1]
  · -- value-equal s arrays
    have t1 : e1'.s.map h1.rmem = ((funcState h e1).fit b).s :=
      congrArg WelfordEstimator.s f1
    have t2 : e2'.s.map h2.rmem = ((funcState h1 e2).fit b).s :=
      congrArg WelfordEstimator.s g1
    have t3 : e1'.s.map h2.rmem = e1'.s.map h1.rmem := by
      cases hsa : e1'.s with
      | none => rfl
      | some a => simp [g4 a (f3.2.1 a hsa)]
    rw [t3, t1, t2, q2]
  · -- the nonzero arrays: same object, or value-equal
    by_cases hz0 : e1.n_samples = 0
    · -- both re-initialize: two distinct fresh arrays with equal contents
      have hz0' : e2.n_samples = 0 := hn ▸ hz0
      have hb1 : e1'.neuron_nonzero = some (h.next + 2) := by
        rw [f6, if_pos hz0]
      have hb2 : e2'.neuron_nonzero = some (h1.next + 2) := by
        rw [g6, if_pos hz0']
      have hlt : h.next + 3 ≤ h1.next := f7 hz0
      refine Or.inr ⟨?_, ?_⟩
      · rw [hb1, hb2]
        intro hcontra
        have := Option.some.inj hcontra
        omega
      · have t1 : e1'.neuron_nonzero.map h1.nmem =
            ((funcState h e1).fit b).neuron_nonzero :=
          congrArg WelfordEstimator.neuron_nonzero f1
        have t2 : e2'.neuron_nonzero.map h2.nmem =
            ((funcState h1 e2).fit b).neuron_nonzero :=
          congrArg WelfordEstimator.neuron_nonzero g1
        have t3 : e1'.neuron_nonzero.map h2.nmem = e1'.neuron_nonzero.map h1.nmem := by
          rw [hb1]
          simp [g5 (h.next + 2) (by omega) (Or.inl hz0')]
        have t4 : ((funcState h e1).fit b).neuron_nonzero =
            ((funcState h1 e2).fit b).neuron_nonzero := by
          rw [fit_of_nzero (funcState h e1) b hz0,
            fit_of_nzero (funcState h1 e2) b hz0']
        rw [t3, t1, t4, ← t2]
    · -- both keep their nonzero object
      have hz0' : e2.n_samples ≠ 0 := hn ▸ hz0
      have hb1 : e1'.neuron_nonzero = e1.neuron_nonzero := by
        rw [f6, if_neg hz0]
      have hb2 : e2'.neuron_nonzero = e2.neuron_nonzero := by
        rw [g6, if_neg hz0']
      rcases hz with hzeq | ⟨hzne, hzmap⟩
      · exact Or.inl (by rw [hb1, hb2, hzeq])
      · obtain ⟨a1, ha1⟩ := Option.isSome_iff_exists.mp (hw1.2.2.2 hz0).2.2
        obtain ⟨a2, ha2⟩ := Option.isSome_iff_exists.mp (hw2.2.2.2 hz0').2.2
        refine Or.inr ⟨by rw [hb1, hb2]; exact hzne, ?_⟩
        have t2 : e2'.neuron_nonzero.map h2.nmem =
            ((funcState h1 e2).fit b).neuron_nonzero :=
          congrArg WelfordEstimator.neuron_nonzero g1
        have t3 : e1'.neuron_nonzero.map h2.nmem =
            e1'.neuron_nonzero.map h1.nmem := by
          rw [hb1, ha1]
          have hne : e2.neuron_nonzero ≠ some a1 := by
            rw [ha2]
            intro hcontra
            exact hzne (by rw [ha1, ha2, Option.some.inj hcontra])
          simp [g5 a1 (lt_of_lt_of_le (hw1.2.2.1 a1 ha1) f2) (Or.inr hne)]
        have t5 : funcState h1 e2 = funcState h e1 := by
          have hzread : e2.neuron_nonzero.map h1.nmem =
              e1.neuron_nonzero.map h.nmem := by
            rw [ha2]
            have hne : e1.neuron_nonzero ≠ some a2 := by
              rw [ha1]
              intro hcontra
              exact hzne (by rw [ha1, ha2, Option.some.inj hcontra])
            simp only [Option.map_some']
            rw [f5 a2 (hw2.2.2.1 a2 ha2) (Or.inr hne), hzmap, ha2]
            rfl
          simp only [funcState, WelfordEstimator.mk.injEq]
          exact ⟨by rw [hm2, ← hm], by rw [hs2, ← hs], hn.symm, hzread⟩
        have t4 : e1'.neuron_nonzero.map h1.nmem =
            ((funcState h e1).fit b).neuron_nonzero :=
          congrArg WelfordEstimator.neuron_nonzero f1
        rw [t3, t4, ← t5, ← t2]

/-- Apply the same sequence of `fit` calls to both estimators, round by round
(original first, then the restored one), threading the shared heap. -/
def runBoth (h : Heap ι) (e1 e2 : WelfordRef) :
    List (List (ι → ℝ)) → Heap ι × WelfordRef × WelfordRef
  | [] => (h, e1, e2)
  | b :: bs =>
    runBoth (fitH (fitH h e1 b).1 e2 b).1 (fitH h e1 b).2
      (fitH (fitH h e1 b).1 e2 b).2 bs

theorem runBoth_coupled (bs : List (List (ι → ℝ))) (h : Heap ι)
    (e1 e2 : WelfordRef) (hc : Coupled h e1 e2) :
    Coupled (runBoth h e1 e2 bs).1 (runBoth h e1 e2 bs).2.1
      (runBoth h e1 e2 bs).2.2 := by
  induction bs generalizing h e1 e2 with
  | nil => exact hc
  | cons b rest ih => exact ih _ _ _ (coupled_fit h e1 e2 b hc)

/-- C2 (amended): `state_dict` / `load_state_dict` are shallow: the snapshot
holds the estimator's array objects themselves and restoring binds those same
objects (restore into a fresh estimator is reference-identical to the
original).  Making identical further `fit` calls on both the original and the
restored estimator still leaves mean, std, sample count, and nonzero counts
reading bit-identically on both — but because the shared `_neuron_nonzero`
object is updated in place, not because independent copies evolve in
parallel. -/
theorem C2_snapshot_restore (h : Heap ι) (e e2 : WelfordRef)
    (bs : List (List (ι → ℝ))) (hwf : wfH h e)
    (he2 : e2 = load_state_dictH ⟨none, none, 0, none⟩ (state_dictH e)) :
    e2 = e ∧
    (funcState (runBoth h e e2 bs).1 (runBoth h e e2 bs).2.1).mean =
      (funcState (runBoth h e e2 bs).1 (runBoth h e e2 bs).2.2).mean ∧
    (funcState (runBoth h e e2 bs).1 (runBoth h e e2 bs).2.1).std =
      (funcState (runBoth h e e2 bs).1 (runBoth h e e2 bs).2.2).std ∧
    (runBoth h e e2 bs).2.1.n_samples = (runBoth h e e2 bs).2.2.n_samples ∧
    (runBoth h e e2 bs).2.1.neuron_nonzero.map (runBoth h e e2 bs).1.nmem =
      (runBoth h e e2 bs).2.2.neuron_nonzero.map (runBoth h e e2 bs).1.nmem := by
  have he2e : e2 = e := by
    rw [he2]
    rfl
  subst he2e
  obtain ⟨cw1, cw2, cn, cm, cs, cz⟩ :=
    runBoth_coupled bs h e2 e2 ⟨hwf, hwf, rfl, rfl, rfl, Or.inl rfl⟩
  refine ⟨rfl, cm, ?_, cn, ?_⟩
  · simp only [WelfordEstimator.std, funcState]
    rw [cs, cn]
  · rcases cz with hcz | ⟨_, hcz⟩
    · rw [hcz]
    · exact hcz

/-- A concrete two-call scenario over a scalar feature shape, used to exhibit
the snapshot aliasing: fit one sample, snapshot, restore, fit the original
once more. -/
def exHeap0 : Heap Unit := ⟨0, fun _ _ => 0, fun _ _ => 0⟩

def exFit1 : Heap Unit × WelfordRef := fitH exHeap0 ⟨none, none, 0, none⟩ [fun _ => 1]

def exRestored : WelfordRef := load_state_dictH ⟨none, none, 0, none⟩ (state_dictH exFit1.2)

def exFit2 : Heap Unit × WelfordRef := fitH exFit1.1 exFit1.2 [fun _ => 1]

/-- C2 counterexample: the snapshot is NOT a structural copy.  After
snapshotting and restoring, fitting only the ORIGINAL estimator once more
changes what the restored estimator's `_neuron_nonzero` reads (from 1 to 2),
because `fit` updates the shared array object in place. -/
theorem C2_counterexample :
    exRestored.neuron_nonzero.map (fun a => exFit1.1.nmem a ()) = some 1 ∧
    exRestored.neuron_nonzero.map (fun a => exFit2.1.nmem a ()) = some 2 := by
  constructor <;>
    simp [exRestored, exFit2, exFit1, exHeap0, fitH, loopH, stepH,
      Heap.allocR, Heap.allocN, state_dictH, load_state_dictH,
      Function.update]

/-- Witness for C2's amended statement: the concrete scenario above, with one
further identical batch fitted to both estimators. -/
theorem C2_snapshot_restore_witness :
    exRestored = exFit1.2 ∧
    (runBoth exFit1.1 exFit1.2 exRestored [[fun _ => 1]]).2.1.n_samples =
      (runBoth exFit1.1 exFit1.2 exRestored [[fun _ => 1]]).2.2.n_samples := by
  have hwf : wfH exFit1.1 exFit1.2 := by
    refine ⟨?_, ?_, ?_, ?_⟩ <;>
      simp [exFit1, exHeap0, fitH, loopH, stepH, Heap.allocR, Heap.allocN]
  obtain ⟨h1, _, _, h4, _⟩ :=
    C2_snapshot_restore exFit1.1 exFit1.2 exRestored [[fun _ => 1]] hwf rfl
  exact ⟨h1, h4⟩

/-! ## Shape-aware model over flat 1-D arrays (numpy broadcasting, for C3)

`fit` contains no shape check at all.  What happens on a trailing-shape
mismatch is decided entirely by numpy broadcasting, which this model embeds
for 1-D feature shapes (samples as `List ℚ`; exact rationals stand in for
floats — no irrational constants occur here). -/

/-- numpy's broadcast result length for two 1-D lengths: defined when the
lengths are equal or one of them is 1. -/
def bcastLen (la lb : ℕ) : Option ℕ :=
  if la = lb then some la
  else if la = 1 then some lb
  else if lb = 1 then some la
  else none

/-- Read element `i` of a 1-D array under broadcasting (a length-1 array
repeats its single element). -/
def bcastGet (a : List ℚ) (i : ℕ) : ℚ :=
  if a.length = 1 then a.getD 0 0 else a.getD i 0

/-- Elementwise binary operation with numpy 1-D broadcasting; `none` models
numpy's `ValueError: operands could not be broadcast together`. -/
def bcast2 (f : ℚ → ℚ → ℚ) (a b : List ℚ) : Option (List ℚ) :=
  (bcastLen a.length b.length).map
    (fun L => (List.range L).map (fun i => f (bcastGet a i) (bcastGet b i)))

/-- `self._neuron_nonzero += (xi != 0.)`: numpy's in-place `+=` keeps the
left-hand shape and requires the right-hand side to broadcast TO it (equal
length, or right-hand length 1); otherwise it raises. -/
def nzIadd (nz : List ℕ) (xi : List ℚ) : Except String (List ℕ) :=
  if xi.length = nz.length ∨ xi.length = 1 then
    .ok ((List.range nz.length).map
      (fun i => nz.getD i 0 + (if bcastGet xi i = 0 then 0 else 1)))
  else .error "operands could not be broadcast together"

/-- Lift a broadcast failure into the error monad. -/
def oe {α : Type} : Option α → Except String α
  | some v => .ok v
  | none => .error "operands could not be broadcast together"

/-- The loop body of `fit` on 1-D arrays with numpy broadcasting.  The
`_neuron_nonzero` update runs first, so a non-broadcastable sample fails
there, before any statistic is touched. -/
def welfordStepDyn (m s : List ℚ) (nz : List ℕ) (n : ℕ) (xi : List ℚ) :
    Except String (List ℚ × List ℚ × List ℕ × ℕ) := do
  let nz' ← nzIadd nz xi
  let old_m := m
  let diff ← oe (bcast2 (fun a b => a - b) xi m)
  let m' ← oe (bcast2 (fun a b => a + b) m (diff.map (fun v => v / ((n : ℚ) + 1))))
  let d1 ← oe (bcast2 (fun a b => a - b) xi m')
  let d2 ← oe (bcast2 (fun a b => a - b) xi old_m)
  let p ← oe (bcast2 (fun a b => a * b) d1 d2)
  let s' ← oe (bcast2 (fun a b => a + b) s p)
  pure (m', s', nz', n + 1)

/-- The estimator over dynamically-shaped 1-D samples. -/
structure WelfordDyn where
  m : Option (List ℚ)
  s : Option (List ℚ)
  n_samples : ℕ
  neuron_nonzero : Option (List ℕ)
deriving DecidableEq

/-- `fit` over 1-D samples: the feature length is inferred from the first
batch's rows (`shape = x.shape[1:]`) and zero arrays of that length are
allocated; later batches are folded in with broadcasting semantics — there
is no explicit shape validation anywhere. -/
def WelfordDyn.fit (est : WelfordDyn) (x : List (List ℚ)) :
    Except String WelfordDyn := do
  let c0 : List ℚ × List ℚ × List ℕ × ℕ :=
    if est.n_samples = 0 then
      let L := x.headI.length
      (List.replicate L 0, List.replicate L 0, List.replicate L 0, 0)
    else (est.m.getD [], est.s.getD [], est.neuron_nonzero.getD [], est.n_samples)
  let r ← x.foldlM (fun st xi => welfordStepDyn st.1 st.2.1 st.2.2.1 st.2.2.2 xi) c0
  pure ⟨some r.1, some r.2.1, r.2.2.2, some r.2.2.1⟩

theorem bcast2_of_eq_len (f : ℚ → ℚ → ℚ) (a b : List ℚ) (h : a.length = b.length) :
    ∃ r, bcast2 f a b = some r ∧ r.length = b.length := by
  have hb : bcastLen a.length b.length = some a.length := by
    simp [bcastLen, h]
  exact ⟨(List.range a.length).map (fun i => f (bcastGet a i) (bcastGet b i)),
    by simp only [bcast2, hb, Option.map_some'], by simp [h]⟩

theorem bcast2_one_left (f : ℚ → ℚ → ℚ) (a b : List ℚ) (h : a.length = 1) :
    ∃ r, bcast2 f a b = some r ∧ r.length = b.length := by
  rcases eq_or_ne (a.length) b.length with he | hne
  · exact bcast2_of_eq_len f a b he
  · have hb : bcastLen a.length b.length = some b.length := by
      simp only [bcastLen, if_neg hne, if_pos h]
    exact ⟨(List.range b.length).map (fun i => f (bcastGet a i) (bcastGet b i)),
      by simp only [bcast2, hb, Option.map_some'], by simp⟩

/-- When the sample length matches the feature length or is 1, the loop body
succeeds and increments the count. -/
theorem welfordStepDyn_ok (L : ℕ) (m s : List ℚ) (nz : List ℕ) (n : ℕ)
    (xi : List ℚ) (hm : m.length = L) (hs : s.length = L) (hz : nz.length = L)
    (hxi : xi.length = L ∨ xi.length = 1) :
    ∃ m' s' nz', welfordStepDyn m s nz n xi = .ok (m', s', nz', n + 1) ∧
      m'.length = L ∧ s'.length = L ∧ nz'.length = L := by
  have hcond : xi.length = nz.length ∨ xi.length = 1 := by
    rcases hxi with hxi | hxi
    · exact Or.inl (by omega)
    · exact Or.inr hxi
  have hnz : nzIadd nz xi = .ok ((List.range nz.length).map
      (fun i => nz.getD i 0 + (if bcastGet xi i = 0 then 0 else 1))) := by
    simp [nzIadd, hcond]
  have hdiff : ∃ r, bcast2 (fun a b => a - b) xi m = some r ∧ r.length = L := by
    rcases hxi with hxi | hxi
    · obtain ⟨r, hr, hl⟩ := bcast2_of_eq_len _ xi m (by omega)
      exact ⟨r, hr, by omega⟩
    · obtain ⟨r, hr, hl⟩ := bcast2_one_left _ xi m hxi
      exact ⟨r, hr, by omega⟩
  obtain ⟨diff, hdiffeq, hdifflen⟩ := hdiff
  obtain ⟨m', hm'eq, hm'len⟩ := bcast2_of_eq_len (fun a b => a + b) m
    (diff.map (fun v => v / ((n : ℚ) + 1))) (by simp [hm, hdifflen])
  have hm'L : m'.length = L := by simpa [hdifflen] using hm'len
  have hd1 : ∃ r, bcast2 (fun a b => a - b) xi m' = some r ∧ r.length = L := by
    rcases hxi with hxi | hxi
    · obtain ⟨r, hr, hl⟩ := bcast2_of_eq_len _ xi m' (by omega)
      exact ⟨r, hr, by omega⟩
    · obtain ⟨r, hr, hl⟩ := bcast2_one_left _ xi m' hxi
      exact ⟨r, hr, by omega⟩
  obtain ⟨d1, hd1eq, hd1len⟩ := hd1
  obtain ⟨p, hpeq, hplen⟩ := bcast2_of_eq_len (fun a b => a * b) d1 diff (by omega)
  obtain ⟨s', hs'eq, hs'len⟩ := bcast2_of_eq_len (fun a b => a + b) s p (by omega)
  refine ⟨m', s', (List.range nz.length).map
    (fun i => nz.getD i 0 + (if bcastGet xi i = 0 then 0 else 1)), ?_,
    hm'L, by omega, by simp [hz]⟩
  simp [welfordStepDyn, hnz, hdiffeq, hm'eq, hd1eq, hpeq, hs'eq,
    oe, Except.bind, Bind.bind, pure, Except.pure]

/-- When the sample length neither matches nor is 1, the loop body fails at
the in-place `_neuron_nonzero` update with a broadcast error. -/
theorem welfordStepDyn_err (m s : List ℚ) (nz : List ℕ) (n : ℕ) (xi : List ℚ)
    (h1 : xi.length ≠ nz.length) (h2 : xi.length ≠ 1) :
    welfordStepDyn m s nz n xi =
      .error "operands could not be broadcast together" := by
  have hcond : ¬(xi.length = nz.length ∨ xi.length = 1) := by
    rintro (hc | hc)
    · exact h1 hc
    · exact h2 hc
  have hnz : nzIadd nz xi =
      (.error "operands could not be broadcast together" :
        Except String (List ℕ)) := by
    simp [nzIadd, hcond]
  simp [welfordStepDyn, hnz, Except.bind, Bind.bind]

/-- C3 counterexample: after establishing feature shape `(3,)` from the first
batch `[[1, 2, 3]]`, fitting the mismatched batch `[[5]]` (per-sample shape
`(1,)`) does NOT fail: it is silently broadcast and folded in, yielding
sample count 2 and fully updated statistics.  No `ShapeError` exists anywhere
in the module. -/
theorem C3_counterexample :
    Except.bind (WelfordDyn.fit ⟨none, none, 0, none⟩ [[1, 2, 3]])
      (fun e1 => e1.fit [[5]]) =
    .ok ⟨some [3, 7/2, 4], some [8, 9/2, 2], 2, some [2, 2, 2]⟩ := by
  have h3 : List.range 3 = [0, 1, 2] := rfl
  simp [WelfordDyn.fit, welfordStepDyn, nzIadd, oe, bcast2, bcastLen, bcastGet,
    List.foldlM, Except.bind, Bind.bind, pure, Except.pure, h3, List.getD]
  norm_num

/-- C3 (amended): `fit` performs no shape validation and never raises a
`ShapeError` (no such class exists).  With an established feature length `L`,
a later single-sample batch of per-sample length `L'` is folded in silently
(incrementing the sample count) exactly when it is numpy-broadcast-compatible
(`L' = L` or `L' = 1`) — so a mismatched length-1 sample IS silently
coerced — and otherwise fails with numpy's generic broadcast error, not a
`ShapeError`. -/
theorem C3_no_shape_validation (est : WelfordDyn) (L : ℕ) (xi mv sv : List ℚ)
    (zv : List ℕ) (hn : est.n_samples ≠ 0)
    (hm : est.m = some mv) (hmL : mv.length = L)
    (hs : est.s = some sv) (hsL : sv.length = L)
    (hz : est.neuron_nonzero = some zv) (hzL : zv.length = L) :
    ((∃ e', est.fit [xi] = .ok e' ∧ e'.n_samples = est.n_samples + 1) ↔
      (xi.length = L ∨ xi.length = 1)) ∧
    (xi.length ≠ L → xi.length ≠ 1 →
      est.fit [xi] = .error "operands could not be broadcast together") := by
  have herr : xi.length ≠ L → xi.length ≠ 1 →
      est.fit [xi] = .error "operands could not be broadcast together" := by
    intro hne hne1
    have hstep := welfordStepDyn_err mv sv zv est.n_samples xi
      (by omega) hne1
    simp [WelfordDyn.fit, hn, hm, hs, hz, hstep, List.foldlM, Except.bind,
      Bind.bind, pure, Except.pure]
  refine ⟨⟨?_, ?_⟩, herr⟩
  · rintro ⟨e', hok, _⟩
    by_contra hcontra
    push_neg at hcontra
    rw [herr hcontra.1 hcontra.2] at hok
    exact Except.noConfusion hok
  · intro hxi
    obtain ⟨m', s', nz', hstep, _, _, _⟩ :=
      welfordStepDyn_ok L mv sv zv est.n_samples xi hmL hsL hzL hxi
    refine ⟨⟨some m', some s', est.n_samples + 1, some nz'⟩, ?_, rfl⟩
    simp [WelfordDyn.fit, hn, hm, hs, hz, hstep, List.foldlM, Except.bind,
      Bind.bind, pure, Except.pure]

/-- Witness for C3's amended statement: feature length 3, mismatched
length-1 sample `[5]` is accepted (count goes 1 → 2). -/
theorem C3_no_shape_validation_witness :
    ∃ e', (WelfordDyn.mk (some [1, 2, 3]) (some [0, 0, 0]) 1
        (some [1, 1, 1])).fit [[5]] = .ok e' ∧ e'.n_samples = 2 :=
  (C3_no_shape_validation ⟨some [1, 2, 3], some [0, 0, 0], 1, some [1, 1, 1]⟩
    3 [5] [1, 2, 3] [0, 0, 0] [1, 1, 1] (by decide) rfl (by decide) rfl
    (by decide) rfl (by decide)).1.mpr (Or.inr rfl)

/-! ## `to_saliency_map`

Capacity arrays are dense numpy arrays of any rank, flattened row-major;
`none` entries model NaN.  `np.nansum` (an external numpy primitive) is
modelled with its documented semantics: NaN entries contribute zero, so an
all-NaN slice reduces to 0.  The skimage `resize` call is external library
code; the embedding stops at that call boundary and records exactly what is
passed to it. -/

/-- A dense numpy array with possibly-NaN float entries (`none` = NaN),
flattened row-major. -/
structure CapArray where
  shape : List ℕ
  data : List (Option ℝ)

/-- A dense float array (the reductions below never produce NaN from
finite-or-NaN input). -/
structure RArray where
  shape : List ℕ
  data : List ℝ

/-- `np.nansum(capacity, 0)`: sum along axis 0 treating NaN as 0.  `none`
models numpy's axis error on a 0-d array. -/
def nansum0 (a : CapArray) : Option RArray :=
  match a.shape with
  | [] => none
  | d0 :: rest =>
    let stride := rest.prod
    some ⟨rest, (List.range stride).map
      (fun j => ((List.range d0).map
        (fun i => ((a.data.getD (i * stride + j) none).getD 0))).sum)⟩

/-- `np.nansum(capacity, -1)`: sum along the last axis treating NaN as 0. -/
def nansumLast (a : CapArray) : Option RArray :=
  match a.shape.getLast? with
  | none => none
  | some dl =>
    let outer := a.shape.dropLast.prod
    some ⟨a.shape.dropLast, (List.range outer).map
      (fun j => ((List.range dl).map
        (fun i => ((a.data.getD (j * dl + i) none).getD 0))).sum)⟩

/-- The reduction step of `to_saliency_map`: `saliency_map` is assigned only
inside the two `if data_format == ...` branches; the outer `none` models the
`UnboundLocalError` raised at the next line when neither branch ran (the
reduced map is never computed in that case). -/
def reduceCap (capacity : CapArray) (data_format : String) : Option (Option RArray) :=
  if data_format = "NCHW" then some (nansum0 capacity)
  else if data_format = "NHWC" then some (nansumLast capacity)
  else none

/-- The Python errors `to_saliency_map` can raise. -/
inductive PyError where
  | unboundLocal
  | axisError
  | unpackError
  | zeroDivision
deriving DecidableEq

/-- The call `resize(saliency_map, shape, order=1, preserve_range=True)` at
the boundary to the external skimage resampler: the (already rescaled) input
array, the target shape, `order = 1` (bilinear) and `preserve_range = true`
(keep the numeric range; no renormalization to [0, 1]). -/
structure ResizeCall where
  input : RArray
  output_shape : ℕ × ℕ
  order : ℕ
  preserve_range : Bool

/-- The result of `to_saliency_map`: either the native-resolution bits map,
or a fully-described call to the external bilinear resampler. -/
inductive SaliencyOut where
  | native : RArray → SaliencyOut
  | resized : ResizeCall → SaliencyOut

/-- `to_saliency_map(capacity, shape=None, data_format='NCHW')`:
reduce over the channel axis with `nansum`, divide by `ln 2`, and either
return the native map (`shape is None`) or rescale every element by
`(ho*wo)/(h*w)` and hand the map to the external bilinear resampler. -/
def to_saliency_map (capacity : CapArray) (shape : Option (List ℕ))
    (data_format : String) : Except PyError SaliencyOut :=
  match reduceCap capacity data_format with
  | none => .error .unboundLocal
  | some none => .error .axisError
  | some (some sm0) =>
    let sm : RArray := ⟨sm0.shape, sm0.data.map (fun v => v / Real.log 2)⟩
    match shape with
    | none => .ok (.native sm)
    | some tgt =>
      match sm.shape with
      | [ho, wo] =>
        match tgt with
        | [h, w] =>
          if h * w = 0 then .error .zeroDivision
          else .ok (.resized ⟨⟨sm.shape,
            sm.data.map (fun v => v * (((ho : ℝ) * wo) / ((h : ℝ) * w)))⟩,
            (h, w), 1, true⟩)
        | _ => .error .unpackError
      | _ => .error .unpackError

theorem nchw3_reduce (C H W : ℕ) (cap : CapArray) (hshape : cap.shape = [C, H, W]) :
    to_saliency_map cap none "NCHW" = .ok (.native ⟨[H, W],
      (List.range (H * W)).map (fun j =>
        ((List.range C).map
          (fun i => ((cap.data.getD (i * (H * W) + j) none).getD 0))).sum /
        Real.log 2)⟩) := by
  simp [to_saliency_map, reduceCap, nansum0, hshape, List.map_map, Function.comp]

theorem nhwc3_reduce (H W C : ℕ) (cap : CapArray) (hshape : cap.shape = [H, W, C]) :
    to_saliency_map cap none "NHWC" = .ok (.native ⟨[H, W],
      (List.range (H * W)).map (fun j =>
        ((List.range C).map
          (fun i => ((cap.data.getD (j * C + i) none).getD 0))).sum /
        Real.log 2)⟩) := by
  simp [to_saliency_map, reduceCap, nansumLast, hshape, List.map_map,
    Function.comp, List.getLast?, List.dropLast]

/-- C5: `to_saliency_map` reduces across the channel axis (axis 0 for
channel-first, the last axis for channel-last) with a NaN-as-zero sum (an
all-NaN location reduces to 0, not NaN), then divides every element by
`ln 2`; in particular a channel-first `(C, H, W)` array filled with `ln 2`
yields, for every `H` and `W`, the uniform map valued `C`. -/
theorem C5_reduce_and_bits :
    (∀ (C H W : ℕ) (cap : CapArray), cap.shape = [C, H, W] →
      to_saliency_map cap none "NCHW" = .ok (.native ⟨[H, W],
        (List.range (H * W)).map (fun j =>
          ((List.range C).map
            (fun i => ((cap.data.getD (i * (H * W) + j) none).getD 0))).sum /
          Real.log 2)⟩)) ∧
    (∀ (H W C : ℕ) (cap : CapArray), cap.shape = [H, W, C] →
      to_saliency_map cap none "NHWC" = .ok (.native ⟨[H, W],
        (List.range (H * W)).map (fun j =>
          ((List.range C).map
            (fun i => ((cap.data.getD (j * C + i) none).getD 0))).sum /
          Real.log 2)⟩)) ∧
    (to_saliency_map ⟨[2, 1, 1], [none, none]⟩ none "NCHW" =
      .ok (.native ⟨[1, 1], [0]⟩)) ∧
    (∀ (C H W : ℕ),
      to_saliency_map ⟨[C, H, W], List.replicate (C * H * W) (some (Real.log 2))⟩
        none "NCHW" = .ok (.native ⟨[H, W], List.replicate (H * W) (C : ℝ)⟩)) := by
  refine ⟨nchw3_reduce, nhwc3_reduce, ?_, ?_⟩
  · have h2 : List.range 2 = [0, 1] := rfl
    have h1 : List.range 1 = [0] := rfl
    simp [to_saliency_map, reduceCap, nansum0, h2, h1, Function.comp]
  · intro C H W
    rw [nchw3_reduce C H W _ rfl]
    have hlog : Real.log 2 ≠ 0 := ne_of_gt (Real.log_pos one_lt_two)
    have hdata : (List.range (H * W)).map (fun j =>
        ((List.range C).map (fun i =>
          (((List.replicate (C * H * W) (some (Real.log 2))).getD
            (i * (H * W) + j) none).getD 0))).sum / Real.log 2) =
        List.replicate (H * W) (C : ℝ) := by
      rw [List.map_congr_left (g := fun _ => (C : ℝ))]
      · simp [List.map_const']
      · intro j hj
        rw [List.mem_range] at hj
        have hinner : (List.range C).map (fun i =>
            (((List.replicate (C * H * W) (some (Real.log 2))).getD
              (i * (H * W) + j) none).getD 0)) =
            (List.range C).map (fun _ => Real.log 2) := by
          refine List.map_congr_left ?_
          intro i hi
          rw [List.mem_range] at hi
          have hidx : i * (H * W) + j < C * (H * W) := by
            calc i * (H * W) + j < i * (H * W) + H * W := by omega
              _ = (i + 1) * (H * W) := by ring
              _ ≤ C * (H * W) := Nat.mul_le_mul_right _ (by omega)
          have hidx2 : i * (H * W) + j < C * H * W := by
            rw [Nat.mul_assoc]
            exact hidx
          simp [List.getD, List.getElem?_replicate, hidx2]
        rw [hinner]
        simp [List.map_const', mul_div_assoc, div_self hlog]
    rw [hdata]

/-- Witness for C5 at a concrete one-element capacity array. -/
theorem C5_reduce_and_bits_witness :
    to_saliency_map ⟨[1, 1, 1], [some 1]⟩ none "NCHW" =
      .ok (.native ⟨[1, 1],
        (List.range (1 * 1)).map (fun j =>
          ((List.range 1).map
            (fun i => ((([some (1 : ℝ)] : List (Option ℝ)).getD
              (i * (1 * 1) + j) none).getD 0))).sum / Real.log 2)⟩) :=
  C5_reduce_and_bits.1 1 1 1 ⟨[1, 1, 1], [some 1]⟩ rfl

/-- C6: when a target shape `(h, w)` is given and the native reduced map has
resolution `(ho, wo)`, every element of the bits-unit map is multiplied by
exactly `(ho*wo)/(h*w)` BEFORE the map is handed to the external resampler,
which is invoked with `order = 1` (bilinear) and `preserve_range = true` (no
renormalization to [0, 1]); when the target shape is omitted, the map is
returned at native resolution with no rescaling and no resampling. -/
theorem C6_rescale_before_resize (cap : CapArray) (df : String) (sm0 : RArray)
    (ho wo h w : ℕ) (hred : reduceCap cap df = some (some sm0))
    (hsm : sm0.shape = [ho, wo]) (hw : h * w ≠ 0) :
    to_saliency_map cap (some [h, w]) df = .ok (.resized ⟨⟨[ho, wo],
        (sm0.data.map (fun v => v / Real.log 2)).map
          (fun v => v * (((ho : ℝ) * wo) / ((h : ℝ) * w)))⟩,
        (h, w), 1, true⟩) ∧
    to_saliency_map cap none df = .ok (.native ⟨[ho, wo],
        sm0.data.map (fun v => v / Real.log 2)⟩) := by
  constructor
  · simp only [to_saliency_map, hred, hsm]
    rw [if_neg hw]
  · simp only [to_saliency_map, hred, hsm]

/-- Witness for C6 at a concrete 1×1 capacity array resampled to 2×2. -/
theorem C6_rescale_before_resize_witness :
    to_saliency_map ⟨[1, 1, 1], [some 1]⟩ (some [2, 2]) "NCHW" =
      .ok (.resized ⟨⟨[1, 1],
        ((⟨[1, 1], [1]⟩ : RArray).data.map (fun v => v / Real.log 2)).map
          (fun v => v * ((((1 : ℕ) : ℝ) * ((1 : ℕ) : ℝ)) /
            (((2 : ℕ) : ℝ) * ((2 : ℕ) : ℝ))))⟩, (2, 2), 1, true⟩) :=
  (C6_rescale_before_resize ⟨[1, 1, 1], [some 1]⟩ "NCHW" ⟨[1, 1], [1]⟩ 1 1 2 2
    (by
      have h1 : List.range 1 = [0] := rfl
      simp [reduceCap, nansum0, h1])
    rfl (by norm_num)).1

/-- C10: an unrecognized `data_format` leaves `saliency_map` unassigned, so
the call raises (an `UnboundLocalError`) before any reduction is computed —
it never silently falls back to one of the two layouts; and for every
at-least-2-D capacity array, exactly the two recognized values `'NCHW'` and
`'NHWC'` produce a result when no target shape is requested. -/
theorem C10_data_format_validation :
    (∀ (cap : CapArray) (shape : Option (List ℕ)) (df : String),
      df ≠ "NCHW" → df ≠ "NHWC" →
      to_saliency_map cap shape df = .error .unboundLocal) ∧
    (∀ (cap : CapArray) (df : String), 2 ≤ cap.shape.length →
      ((∃ out, to_saliency_map cap none df = .ok out) ↔
        (df = "NCHW" ∨ df = "NHWC"))) := by
  have herr : ∀ (cap : CapArray) (shape : Option (List ℕ)) (df : String),
      df ≠ "NCHW" → df ≠ "NHWC" →
      to_saliency_map cap shape df = .error .unboundLocal := by
    intro cap shape df h1 h2
    simp [to_saliency_map, reduceCap, h1, h2]
  refine ⟨herr, ?_⟩
  intro cap df hlen
  constructor
  · rintro ⟨out, hout⟩
    by_contra hcontra
    push_neg at hcontra
    rw [herr cap none df hcontra.1 hcontra.2] at hout
    exact Except.noConfusion hout
  · rintro (hdf | hdf) <;> subst hdf
    · match hs : cap.shape with
      | [] => rw [hs] at hlen; simp at hlen
      | d0 :: rest =>
        cases hres : to_saliency_map cap none "NCHW" with
        | ok out => exact ⟨out, rfl⟩
        | error e =>
          simp [to_saliency_map, reduceCap, nansum0, hs] at hres
    · match hs : cap.shape with
      | [] => rw [hs] at hlen; simp at hlen
      | d0 :: rest =>
        have hlast : (d0 :: rest).getLast? = some ((d0 :: rest).getLast (by simp)) :=
          List.getLast?_eq_getLast _ _
        cases hres : to_saliency_map cap none "NHWC" with
        | ok out => exact ⟨out, rfl⟩
        | error e =>
          simp [to_saliency_map, reduceCap, nansumLast, hs, hlast] at hres

/-- Witness for C10: the typo layout string `'NCWH'` raises before any
reduction, and `'NCHW'` on a 2-D array produces a result. -/
theorem C10_data_format_validation_witness :
    to_saliency_map ⟨[1, 1], [some 1]⟩ none "NCWH" = .error .unboundLocal ∧
    (∃ out, to_saliency_map ⟨[1, 1], [some 1]⟩ none "NCHW" = .ok out) :=
  ⟨C10_data_format_validation.1 ⟨[1, 1], [some 1]⟩ none "NCWH"
      (by decide) (by decide),
    (C10_data_format_validation.2 ⟨[1, 1], [some 1]⟩ "NCHW" (by decide)).mpr
      (Or.inl rfl)⟩

/-- C8 counterexample: a 1-D capacity array with no target shape does NOT
fail — `to_saliency_map` returns a 0-d (scalar) result.  (No `ShapeError`
class exists in the module; no rank validation is performed.) -/
theorem C8_counterexample :
    to_saliency_map ⟨[3], [some 1, some 2, some 3]⟩ none "NCHW" =
      .ok (.native ⟨[], [6 / Real.log 2]⟩) := by
  have h1 : List.range 1 = [0] := rfl
  have h3 : List.range 3 = [0, 1, 2] := rfl
  simp [to_saliency_map, reduceCap, nansum0, h1, h3, Function.comp]
  norm_num

/-- C8 (amended): `to_saliency_map` performs no explicit validation and it
never raises a `ShapeError` (no such class exists).  A capacity array with
fewer than 2 dimensions is rejected only incidentally: a 1-D capacity with
`shape` omitted succeeds with a 0-d result; with a target shape given, the
tuple unpacking `ho, wo = saliency_map.shape` fails; a 0-d capacity fails at
the reduction with an axis error.  A malformed `target_shape` likewise fails
only at `h, w = shape` unpacking (wrong arity) or with a zero-division error
(zero-area shape). -/
theorem C8_no_rank_validation :
    (∀ (cap : CapArray) (d0 : ℕ), cap.shape = [d0] →
      to_saliency_map cap none "NCHW" = .ok (.native ⟨[],
        [((List.range d0).map
          (fun i => ((cap.data.getD i none).getD 0))).sum / Real.log 2]⟩)) ∧
    (∀ (cap : CapArray) (d0 : ℕ) (tgt : List ℕ), cap.shape = [d0] →
      to_saliency_map cap (some tgt) "NCHW" = .error .unpackError) ∧
    (∀ (cap : CapArray) (d0 d1 d2 : ℕ) (tgt : List ℕ),
      cap.shape = [d0, d1, d2] → tgt.length ≠ 2 →
      to_saliency_map cap (some tgt) "NCHW" = .error .unpackError) ∧
    (∀ (cap : CapArray) (d0 d1 d2 h w : ℕ), cap.shape = [d0, d1, d2] →
      h * w = 0 →
      to_saliency_map cap (some [h, w]) "NCHW" = .error .zeroDivision) ∧
    (∀ cap : CapArray, cap.shape = [] →
      to_saliency_map cap none "NCHW" = .error .axisError) := by
  refine ⟨?_, ?_, ?_, ?_, ?_⟩
  · intro cap d0 hs
    have h1 : List.range 1 = [0] := rfl
    simp [to_saliency_map, reduceCap, nansum0, hs, h1, Function.comp]
  · intro cap d0 tgt hs
    simp [to_saliency_map, reduceCap, nansum0, hs]
  · intro cap d0 d1 d2 tgt hs htgt
    match tgt with
    | [] => simp [to_saliency_map, reduceCap, nansum0, hs]
    | [a] => simp [to_saliency_map, reduceCap, nansum0, hs]
    | a :: b :: c :: t => simp [to_saliency_map, reduceCap, nansum0, hs]
    | [a, b] => simp at htgt
  · intro cap d0 d1 d2 h w hs hw
    simp [to_saliency_map, reduceCap, nansum0, hs, hw]
  · intro cap hs
    simp [to_saliency_map, reduceCap, nansum0, hs]

/-- Witness for C8's amended statement: 1-D capacity with a target shape
fails at shape unpacking (not with a `ShapeError`). -/
theorem C8_no_rank_validation_witness :
    to_saliency_map ⟨[1], [some 0]⟩ (some [2, 2]) "NCHW" =
      .error .unpackError :=
  C8_no_rank_validation.2.1 ⟨[1], [some 0]⟩ 1 [2, 2] rfl

end
